import Mathlib

/-!
Shallow embedding of the rotor-based cipher machine ("Enigma") specified in
spec.md of this repository.  The implementation file of the machine is not
present in the repository snapshot; only its test suite (`enigma.test.js`) and
a coverage report quoting fragments of the code are.  All definitions below
are therefore modelled from the specification text (sections 2-4 and 6 of
spec.md), with the constant tables pinned down by the test suite
(`enigma.test.js`, "Constants validation" block: historical rotor I/II/III
wirings with notches Q/E/V, and the involutive reflector).

JavaScript's `%` operator is truncated remainder (sign of the dividend),
which is `Int.tmod` in Lean; the helper `mod` below is the literal
translation of `((n % m) + m) % m`.  Strings are modelled as `List Char`,
`string[i]` as `charAt` and `string.indexOf(c)` as `strIndexOf` (returning
-1 when absent, as in JavaScript).  Mutation of rotor state is modelled by
explicit state passing: `encryptChar` and `process` return the new machine
next to the produced character(s).
-/

/-- Modelled from the spec (§4.1): `mod(n, m)` returns the non-negative
residue of `n` in `[0, m)`, computed exactly as `((n % m) + m) % m` with
JavaScript's truncated `%` (`Int.tmod`). -/
def mod (n m : Int) : Int := Int.tmod (Int.tmod n m + m) m

/-- Modelled from the spec (§3): the fixed ordered sequence of the 26
uppercase Latin letters, shared by all components. -/
def alphabet : List Char := "ABCDEFGHIJKLMNOPQRSTUVWXYZ".toList

/-- JavaScript `string.indexOf(c)`: index of the first occurrence of `c`,
or `-1` when `c` does not occur. -/
def strIndexOf (s : List Char) (c : Char) : Int :=
  match s with
  | [] => -1
  | a :: rest =>
    if a = c then 0
    else
      let r := strIndexOf rest c
      if r = -1 then -1 else r + 1

/-- JavaScript `string[i]` for the in-range indices produced by `mod`;
out-of-range access (unreachable in the spec's pipeline) yields a default. -/
def charAt (s : List Char) (i : Int) : Char := s.getD i.toNat '?'

/-- Modelled from the spec (§4.2): `swap(letter, pairs)` returns the paired
letter if `letter` appears in any pair (first match), else the letter
unchanged. -/
def plugboardSwap (c : Char) : List (Char × Char) → Char
  | [] => c
  | (a, b) :: rest =>
    if c = a then b
    else if c = b then a
    else plugboardSwap c rest

/-- Modelled from the spec (§3): a built-in rotor specification — a wiring
permutation of the alphabet and a notch letter. -/
structure RotorSpec where
  wiring : List Char
  notch : Char
deriving DecidableEq

/-- Modelled from the spec (§3) and pinned by the test suite: the three
built-in rotor specifications (historical rotors I, II, III with notches
Q, E, V). -/
def ROTORS : List RotorSpec :=
  [⟨"EKMFLGDQVZNTOWYHXUSPAIBRCJ".toList, 'Q'⟩,
   ⟨"AJDKSIRUXBLHWTMCQGZNPYFVOE".toList, 'E'⟩,
   ⟨"BDFHJLCPRTXVZNYEIWGAKMUSQO".toList, 'V'⟩]

/-- Modelled from the spec (§3) and pinned by the test suite: the constant
26-letter reflector table (historical reflector B), an involutive
substitution with no fixed point. -/
def REFLECTOR : List Char := "YRUHQSLDPXNGOKMIEBFZCWVJAT".toList

/-- Modelled from the spec (§3, §4.3): a rotor — wiring, notch letter,
fixed ring setting and mutable position. -/
structure Rotor where
  wiring : List Char
  notch : Char
  ringSetting : Int
  position : Int
deriving DecidableEq

/-- Modelled from the spec (§4.3): forward substitution.  Shift the input
index by `position - ringSetting`, look the shifted index up in the wiring,
and shift the substituted letter's index back. -/
def Rotor.forward (r : Rotor) (c : Char) : Char :=
  let shiftedIndex := mod (strIndexOf alphabet c + r.position - r.ringSetting) 26
  let substituted := charAt r.wiring shiftedIndex
  charAt alphabet (mod (strIndexOf alphabet substituted - r.position + r.ringSetting) 26)

/-- Modelled from the spec (§4.3): backward substitution, the exact inverse
of `forward` for the same rotor state, implemented via reverse lookup into
the wiring. -/
def Rotor.backward (r : Rotor) (c : Char) : Char :=
  let shiftedIndex := mod (strIndexOf alphabet c + r.position - r.ringSetting) 26
  let wireIndex := strIndexOf r.wiring (charAt alphabet shiftedIndex)
  charAt alphabet (mod (wireIndex - r.position + r.ringSetting) 26)

/-- Modelled from the spec (§4.3): `step()` advances the position by one
modulo 26, the only mutating operation on a rotor. -/
def Rotor.step (r : Rotor) : Rotor := { r with position := mod (r.position + 1) 26 }

/-- Modelled from the spec (§4.3): `atNotch()` is true iff the position
equals the index of the notch letter. -/
def Rotor.atNotch (r : Rotor) : Bool := r.position == strIndexOf alphabet r.notch

/-- Modelled from the spec (§3, §4.4): the machine — exactly three rotors in
left/middle/right order plus the plugboard pairs (the reflector constant is
implicit and shared). -/
structure Enigma where
  left : Rotor
  mid : Rotor
  right : Rotor
  plugboardPairs : List (Char × Char)
deriving DecidableEq

/-- Modelled from the spec (§4.4, construction; §6): build the three rotors
from the selected built-in specs, initial positions and ring settings, and
store the plugboard pairs. -/
def mkEnigma (ids : Fin 3 × Fin 3 × Fin 3) (pos rings : Int × Int × Int)
    (plug : List (Char × Char)) : Enigma :=
  { left := ⟨(ROTORS.get ⟨ids.1.val, ids.1.isLt⟩).wiring,
             (ROTORS.get ⟨ids.1.val, ids.1.isLt⟩).notch, rings.1, pos.1⟩
    mid := ⟨(ROTORS.get ⟨ids.2.1.val, ids.2.1.isLt⟩).wiring,
            (ROTORS.get ⟨ids.2.1.val, ids.2.1.isLt⟩).notch, rings.2.1, pos.2.1⟩
    right := ⟨(ROTORS.get ⟨ids.2.2.val, ids.2.2.isLt⟩).wiring,
              (ROTORS.get ⟨ids.2.2.val, ids.2.2.isLt⟩).notch, rings.2.2, pos.2.2⟩
    plugboardPairs := plug }

/-- Modelled from the spec (§4.4, stepping policy): (1) if the right rotor is
at its notch (evaluated before any mutation), step the middle rotor; (2) if
the middle rotor is at its notch (on its current stored position, reflecting
step 1), step the left rotor; (3) unconditionally step the right rotor. -/
def Enigma.stepRotors (e : Enigma) : Enigma :=
  let e1 := if e.right.atNotch then { e with mid := e.mid.step } else e
  let e2 := if e1.mid.atNotch then { e1 with left := e1.left.step } else e1
  { e2 with right := e2.right.step }

/-- Modelled from the spec (§4.4): mapping a letter through the reflector by
index. -/
def reflect (c : Char) : Char := charAt REFLECTOR (strIndexOf alphabet c)

/-- Modelled from the spec (§4.4, character encryption, alphabetic case):
plugboard entry swap, forward through the rotors right-to-left, reflector by
index, backward through the rotors left-to-right, plugboard exit swap. -/
def Enigma.substitute (e : Enigma) (c : Char) : Char :=
  let c1 := plugboardSwap c e.plugboardPairs
  let c2 := e.right.forward c1
  let c3 := e.mid.forward c2
  let c4 := e.left.forward c3
  let c5 := reflect c4
  let c6 := e.left.backward c5
  let c7 := e.mid.backward c6
  let c8 := e.right.backward c7
  plugboardSwap c8 e.plugboardPairs

/-- Modelled from the spec (§4.4): `encryptChar(c)` — non-alphabet characters
are returned unchanged with no stepping and no substitution; otherwise the
stepping policy runs first and the substitution pipeline uses the stepped
rotor state.  The returned machine models the mutation of rotor state. -/
def Enigma.encryptChar (e : Enigma) (c : Char) : Enigma × Char :=
  if c ∈ alphabet then
    let e2 := e.stepRotors
    (e2, e2.substitute c)
  else (e, c)

/-- Helper for `process`: map `encryptChar` over the characters in order,
threading the machine state. -/
def Enigma.processChars (e : Enigma) : List Char → Enigma × List Char
  | [] => (e, [])
  | c :: cs =>
    let r := e.encryptChar c
    let rest := r.1.processChars cs
    (rest.1, r.2 :: rest.2)

/-- Modelled from the spec (§4.4, message processing): convert the entire
input to uppercase first, then map `encryptChar` over every character in
order. -/
def Enigma.process (e : Enigma) (text : List Char) : Enigma × List Char :=
  e.processChars (text.map Char.toUpper)

/-! ### Arithmetic facts about `mod` -/

theorem tmod_ofNat (m : Nat) : Int.tmod (Int.ofNat m) 26 = Int.ofNat (m % 26) := rfl

theorem tmod_negSucc (m : Nat) :
    Int.tmod (Int.negSucc m) 26 = -Int.ofNat ((m + 1) % 26) := rfl

theorem tmod26_bounds (n : Int) : -26 < Int.tmod n 26 ∧ Int.tmod n 26 < 26 := by
  cases n with
  | ofNat m => rw [tmod_ofNat]; simp only [Int.ofNat_eq_coe]; omega
  | negSucc m => rw [tmod_negSucc]; simp only [Int.ofNat_eq_coe]; omega

theorem tmod26_congr (n : Int) : Int.tmod n 26 % 26 = n % 26 := by
  rw [Int.tmod_def]; omega

theorem tmod26_of_nonneg (a : Int) (h : 0 ≤ a) : Int.tmod a 26 = a % 26 := by
  cases a with
  | ofNat m => rw [tmod_ofNat]; simp only [Int.ofNat_eq_coe]; omega
  | negSucc m => simp at h

/-- The JavaScript-style `mod` agrees with Lean's Euclidean `%` at modulus 26. -/
theorem mod26_eq_emod (n : Int) : mod n 26 = n % 26 := by
  unfold mod
  have hb := tmod26_bounds n
  rw [tmod26_of_nonneg _ (by omega)]
  have := tmod26_congr n
  omega

theorem mod26_nonneg_lt (n : Int) : 0 ≤ mod n 26 ∧ mod n 26 < 26 := by
  rw [mod26_eq_emod]; omega

theorem mod26_of_range (n : Int) (h0 : 0 ≤ n) (h1 : n < 26) : mod n 26 = n := by
  rw [mod26_eq_emod]; omega

theorem mod26_add_left_cancel (a b : Int) : mod (a + mod b 26) 26 = mod (a + b) 26 := by
  simp only [mod26_eq_emod]; omega

theorem mod26_sub_left_cancel (a b : Int) : mod (a - mod b 26) 26 = mod (a - b) 26 := by
  simp only [mod26_eq_emod]; omega

/-! ### Table facts about the alphabet, the wirings and the reflector -/

/-- A 26-letter table that is a permutation of the alphabet, stated through
the list primitives used by the pipeline: positional lookup and reverse
lookup are mutually inverse between table indices and alphabet letters. -/
def GoodWiring (w : List Char) : Prop :=
  (∀ i : Nat, i < 26 →
    charAt w (i : Int) ∈ alphabet ∧ strIndexOf w (charAt w (i : Int)) = (i : Int))
  ∧ (∀ ch ∈ alphabet,
    0 ≤ strIndexOf w ch ∧ strIndexOf w ch < 26 ∧ charAt w (strIndexOf w ch) = ch)

instance (w : List Char) : Decidable (GoodWiring w) := by
  unfold GoodWiring; infer_instance

theorem alphabet_good : GoodWiring alphabet := by decide

theorem rotors_good : ∀ sp ∈ ROTORS, GoodWiring sp.wiring := by decide

theorem GoodWiring.lookup {w : List Char} (h : GoodWiring w) (j : Int)
    (h0 : 0 ≤ j) (h1 : j < 26) :
    charAt w j ∈ alphabet ∧ strIndexOf w (charAt w j) = j := by
  have hj : j = ((j.toNat : Nat) : Int) := (Int.toNat_of_nonneg h0).symm
  rw [hj]
  exact h.1 j.toNat (by omega)

theorem GoodWiring.revLookup {w : List Char} (h : GoodWiring w) (ch : Char)
    (hch : ch ∈ alphabet) :
    0 ≤ strIndexOf w ch ∧ strIndexOf w ch < 26 ∧ charAt w (strIndexOf w ch) = ch :=
  h.2 ch hch

/-! ### The rotor substitutions are mutually inverse bijections of the
alphabet, for every position and ring setting -/

theorem Rotor.forward_def (r : Rotor) (c : Char) :
    r.forward c = charAt alphabet
      (mod (strIndexOf alphabet
              (charAt r.wiring (mod (strIndexOf alphabet c + r.position - r.ringSetting) 26))
            - r.position + r.ringSetting) 26) := rfl

theorem Rotor.backward_def (r : Rotor) (c : Char) :
    r.backward c = charAt alphabet
      (mod (strIndexOf r.wiring
              (charAt alphabet (mod (strIndexOf alphabet c + r.position - r.ringSetting) 26))
            - r.position + r.ringSetting) 26) := rfl

theorem Rotor.forward_mem (r : Rotor) (c : Char) : r.forward c ∈ alphabet := by
  rw [Rotor.forward_def]
  exact (alphabet_good.lookup _ (mod26_nonneg_lt _).1 (mod26_nonneg_lt _).2).1

theorem Rotor.backward_mem (r : Rotor) (c : Char) : r.backward c ∈ alphabet := by
  rw [Rotor.backward_def]
  exact (alphabet_good.lookup _ (mod26_nonneg_lt _).1 (mod26_nonneg_lt _).2).1

theorem Rotor.backward_forward (r : Rotor) (hw : GoodWiring r.wiring) (c : Char)
    (hc : c ∈ alphabet) : r.backward (r.forward c) = c := by
  obtain ⟨hix0, hix26, hixat⟩ := alphabet_good.revLookup c hc
  rw [Rotor.forward_def, Rotor.backward_def]
  set J := mod (strIndexOf alphabet c + r.position - r.ringSetting) 26 with hJ
  have hJb : 0 ≤ J ∧ J < 26 := hJ ▸ mod26_nonneg_lt _
  obtain ⟨hSmem, hSidx⟩ := hw.lookup J hJb.1 hJb.2
  obtain ⟨hiw0, hiw26, hiwat⟩ := alphabet_good.revLookup _ hSmem
  set IW := strIndexOf alphabet (charAt r.wiring J) with hIW
  set O := mod (IW - r.position + r.ringSetting) 26 with hO
  have hOb : 0 ≤ O ∧ O < 26 := hO ▸ mod26_nonneg_lt _
  obtain ⟨hOmem, hOidx⟩ := alphabet_good.lookup O hOb.1 hOb.2
  rw [hOidx]
  have h2 : mod (O + r.position - r.ringSetting) 26 = IW := by
    rw [hO]
    simp only [mod26_eq_emod]
    omega
  rw [h2, hiwat, hSidx]
  have h3 : mod (J - r.position + r.ringSetting) 26 = strIndexOf alphabet c := by
    rw [hJ]
    simp only [mod26_eq_emod]
    omega
  rw [h3, hixat]

theorem Rotor.forward_backward (r : Rotor) (hw : GoodWiring r.wiring) (c : Char)
    (hc : c ∈ alphabet) : r.forward (r.backward c) = c := by
  obtain ⟨hix0, hix26, hixat⟩ := alphabet_good.revLookup c hc
  rw [Rotor.backward_def, Rotor.forward_def]
  set SI := mod (strIndexOf alphabet c + r.position - r.ringSetting) 26 with hSI
  have hSIb : 0 ≤ SI ∧ SI < 26 := hSI ▸ mod26_nonneg_lt _
  obtain ⟨hWmem, hWidx⟩ := alphabet_good.lookup SI hSIb.1 hSIb.2
  obtain ⟨hwi0, hwi26, hwiat⟩ := hw.revLookup _ hWmem
  set WI := strIndexOf r.wiring (charAt alphabet SI) with hWI
  set O := mod (WI - r.position + r.ringSetting) 26 with hO
  have hOb : 0 ≤ O ∧ O < 26 := hO ▸ mod26_nonneg_lt _
  obtain ⟨hOmem, hOidx⟩ := alphabet_good.lookup O hOb.1 hOb.2
  rw [hOidx]
  have h2 : mod (O + r.position - r.ringSetting) 26 = WI := by
    rw [hO]
    simp only [mod26_eq_emod]
    omega
  rw [h2, hwiat, hWidx]
  have h3 : mod (SI - r.position + r.ringSetting) 26 = strIndexOf alphabet c := by
    rw [hSI]
    simp only [mod26_eq_emod]
    omega
  rw [h3, hixat]


/-! ### Reflector facts -/

theorem reflect_mem : ∀ c ∈ alphabet, reflect c ∈ alphabet := by decide

theorem reflect_invol : ∀ c ∈ alphabet, reflect (reflect c) = c := by decide

theorem reflect_no_fixed_point : ∀ c ∈ alphabet, reflect c ≠ c := by decide

/-! ### Plugboard facts -/

/-- All letters mentioned by a list of plugboard pairs, in order. -/
def pairLetters : List (Char × Char) → List Char
  | [] => []
  | (a, b) :: rest => a :: b :: pairLetters rest

/-- Well-formed plugboard pairs per the spec's convention (§3, §7): every
letter of a pair belongs to the alphabet and no letter appears twice. -/
def ValidPairs (ps : List (Char × Char)) : Prop :=
  (pairLetters ps).Nodup ∧ ∀ x ∈ pairLetters ps, x ∈ alphabet

instance (ps : List (Char × Char)) : Decidable (ValidPairs ps) := by
  unfold ValidPairs; infer_instance

theorem plugboardSwap_mem_or (c : Char) (ps : List (Char × Char)) :
    plugboardSwap c ps = c ∨ plugboardSwap c ps ∈ pairLetters ps := by
  induction ps with
  | nil => left; rfl
  | cons p rest ih =>
    obtain ⟨a, b⟩ := p
    by_cases h1 : c = a
    · right; simp [plugboardSwap, pairLetters, h1]
    · by_cases h2 : c = b
      · right; simp [plugboardSwap, pairLetters, h1, h2]
      · rcases ih with h | h
        · left; simpa [plugboardSwap, h1, h2] using h
        · right; simp [plugboardSwap, pairLetters, h1, h2]
          tauto

theorem plugboardSwap_mem (c : Char) (hc : c ∈ alphabet) (ps : List (Char × Char))
    (hps : ValidPairs ps) : plugboardSwap c ps ∈ alphabet := by
  rcases plugboardSwap_mem_or c ps with h | h
  · rwa [h]
  · exact hps.2 _ h

theorem plugboardSwap_invol (c : Char) (ps : List (Char × Char))
    (hnd : (pairLetters ps).Nodup) : plugboardSwap (plugboardSwap c ps) ps = c := by
  induction ps with
  | nil => rfl
  | cons p rest ih =>
    obtain ⟨a, b⟩ := p
    simp only [pairLetters, List.nodup_cons, List.mem_cons] at hnd
    obtain ⟨ha, hb, hrest⟩ := hnd
    by_cases h1 : c = a
    · subst h1
      by_cases hab : b = c
      · simp [plugboardSwap, hab]
      · simp [plugboardSwap, hab, Ne.symm hab]
    · by_cases h2 : c = b
      · subst h2
        have hba : a ≠ c := by tauto
        simp [plugboardSwap, Ne.symm hba, hba]
      · have hstep : plugboardSwap c ((a, b) :: rest) = plugboardSwap c rest := by
          simp [plugboardSwap, h1, h2]
        rw [hstep]
        rcases plugboardSwap_mem_or c rest with h | h
        · rw [h, hstep, h]
        · have hda : plugboardSwap c rest ≠ a := by
            intro hx; exact ha (Or.inr (hx ▸ h))
          have hdb : plugboardSwap c rest ≠ b := by
            intro hx; exact hb (hx ▸ h)
          calc plugboardSwap (plugboardSwap c rest) ((a, b) :: rest)
              = plugboardSwap (plugboardSwap c rest) rest := by
                simp [plugboardSwap, hda, hdb]
            _ = c := ih hrest

/-! ### Machine-level substitution facts -/

/-- Well-formed machine: the three rotors carry built-in wirings (which are
permutations of the alphabet) and the plugboard pairs follow the spec's
convention. -/
def Enigma.WF (e : Enigma) : Prop :=
  GoodWiring e.left.wiring ∧ GoodWiring e.mid.wiring ∧ GoodWiring e.right.wiring
    ∧ ValidPairs e.plugboardPairs

theorem Enigma.substitute_def (e : Enigma) (c : Char) :
    e.substitute c =
      plugboardSwap
        (e.right.backward (e.mid.backward (e.left.backward (reflect
          (e.left.forward (e.mid.forward (e.right.forward
            (plugboardSwap c e.plugboardPairs))))))))
        e.plugboardPairs := rfl

theorem Enigma.substitute_mem (e : Enigma) (hWF : e.WF) (c : Char)
    (hc : c ∈ alphabet) : e.substitute c ∈ alphabet := by
  obtain ⟨hL, hM, hR, hP⟩ := hWF
  rw [Enigma.substitute_def]
  exact plugboardSwap_mem _ (Rotor.backward_mem _ _) _ hP

theorem Enigma.substitute_invol (e : Enigma) (hWF : e.WF) (c : Char)
    (hc : c ∈ alphabet) : e.substitute (e.substitute c) = c := by
  obtain ⟨hL, hM, hR, hP⟩ := hWF
  rw [Enigma.substitute_def, Enigma.substitute_def]
  set P := e.plugboardPairs with hPdef
  set u1 := plugboardSwap c P with hu1
  have m1 : u1 ∈ alphabet := plugboardSwap_mem _ hc _ hP
  set u2 := e.right.forward u1 with hu2
  have m2 : u2 ∈ alphabet := Rotor.forward_mem _ _
  set u3 := e.mid.forward u2 with hu3
  have m3 : u3 ∈ alphabet := Rotor.forward_mem _ _
  set u4 := e.left.forward u3 with hu4
  have m4 : u4 ∈ alphabet := Rotor.forward_mem _ _
  set u5 := reflect u4 with hu5
  have m5 : u5 ∈ alphabet := reflect_mem _ m4
  set u6 := e.left.backward u5 with hu6
  have m6 : u6 ∈ alphabet := Rotor.backward_mem _ _
  set u7 := e.mid.backward u6 with hu7
  have m7 : u7 ∈ alphabet := Rotor.backward_mem _ _
  set u8 := e.right.backward u7 with hu8
  rw [plugboardSwap_invol u8 P hP.1]
  rw [hu8, Rotor.forward_backward e.right hR u7 m7]
  rw [hu7, Rotor.forward_backward e.mid hM u6 m6]
  rw [hu6, Rotor.forward_backward e.left hL u5 m5]
  rw [hu5, reflect_invol u4 m4]
  rw [hu4, Rotor.backward_forward e.left hL u3 m3]
  rw [hu3, Rotor.backward_forward e.mid hM u2 m2]
  rw [hu2, Rotor.backward_forward e.right hR u1 m1]
  rw [hu1, plugboardSwap_invol c P hP.1]

theorem Enigma.substitute_ne (e : Enigma) (hWF : e.WF) (c : Char)
    (hc : c ∈ alphabet) : e.substitute c ≠ c := by
  obtain ⟨hL, hM, hR, hP⟩ := hWF
  intro heq
  rw [Enigma.substitute_def] at heq
  set P := e.plugboardPairs with hPdef
  set u1 := plugboardSwap c P with hu1
  have m1 : u1 ∈ alphabet := plugboardSwap_mem _ hc _ hP
  set u2 := e.right.forward u1 with hu2
  have m2 : u2 ∈ alphabet := Rotor.forward_mem _ _
  set u3 := e.mid.forward u2 with hu3
  have m3 : u3 ∈ alphabet := Rotor.forward_mem _ _
  set u4 := e.left.forward u3 with hu4
  have m4 : u4 ∈ alphabet := Rotor.forward_mem _ _
  have h1 := congrArg (fun x => plugboardSwap x P) heq
  simp only at h1
  rw [plugboardSwap_invol _ P hP.1] at h1
  have h2 := congrArg e.right.forward h1
  rw [Rotor.forward_backward e.right hR _ (Rotor.backward_mem _ _)] at h2
  have h3 := congrArg e.mid.forward h2
  rw [Rotor.forward_backward e.mid hM _ (Rotor.backward_mem _ _)] at h3
  have h4 := congrArg e.left.forward h3
  rw [Rotor.forward_backward e.left hL _ (reflect_mem _ m4), ← hu2, ← hu3, ← hu4] at h4
  exact reflect_no_fixed_point u4 m4 h4

/-! ### Stepping-policy and state-threading facts -/

theorem Enigma.stepRotors_eq (e : Enigma) :
    e.stepRotors =
      { left := if (if e.right.atNotch then e.mid.step else e.mid).atNotch
                then e.left.step else e.left
        mid := if e.right.atNotch then e.mid.step else e.mid
        right := e.right.step
        plugboardPairs := e.plugboardPairs } := by
  by_cases h1 : e.right.atNotch
  · by_cases h2 : e.mid.step.atNotch
    · simp [Enigma.stepRotors, h1, h2]
    · simp [Enigma.stepRotors, h1, h2]
  · by_cases h2 : e.mid.atNotch
    · simp [Enigma.stepRotors, h1, h2]
    · simp [Enigma.stepRotors, h1, h2]

theorem Rotor.step_wiring (r : Rotor) : r.step.wiring = r.wiring := rfl

theorem Enigma.stepRotors_WF (e : Enigma) (h : e.WF) : e.stepRotors.WF := by
  obtain ⟨hL, hM, hR, hP⟩ := h
  rw [Enigma.stepRotors_eq]
  refine ⟨?_, ?_, hR, hP⟩
  · by_cases h2 : (if e.right.atNotch then e.mid.step else e.mid).atNotch <;>
      simp [h2, Rotor.step_wiring, hL]
  · by_cases h1 : e.right.atNotch <;> simp [h1, Rotor.step_wiring, hM]

theorem mkEnigma_WF (ids : Fin 3 × Fin 3 × Fin 3) (pos rings : Int × Int × Int)
    (plug : List (Char × Char)) (hplug : ValidPairs plug) :
    (mkEnigma ids pos rings plug).WF := by
  refine ⟨?_, ?_, ?_, hplug⟩ <;>
    exact rotors_good _ (List.get_mem _ _ _)

theorem Enigma.encryptChar_of_mem (e : Enigma) (c : Char) (hc : c ∈ alphabet) :
    e.encryptChar c = (e.stepRotors, e.stepRotors.substitute c) := by
  simp [Enigma.encryptChar, hc]

theorem Enigma.encryptChar_of_not_mem (e : Enigma) (c : Char) (hc : c ∉ alphabet) :
    e.encryptChar c = (e, c) := by
  simp [Enigma.encryptChar, hc]

theorem Enigma.processChars_cons (e : Enigma) (c : Char) (cs : List Char) :
    e.processChars (c :: cs) =
      (((e.encryptChar c).1.processChars cs).1,
       (e.encryptChar c).2 :: ((e.encryptChar c).1.processChars cs).2) := rfl

theorem Enigma.processChars_length (e : Enigma) (l : List Char) :
    (e.processChars l).2.length = l.length := by
  induction l generalizing e with
  | nil => rfl
  | cons c cs ih => rw [Enigma.processChars_cons]; simp [ih]

/-- Characters produced by `processChars` from uppercase-letter-or-space
input are again uppercase letters or spaces. -/
theorem Enigma.processChars_output (l : List Char) : ∀ e : Enigma, e.WF →
    (∀ c ∈ l, c ∈ alphabet ∨ c = ' ') →
    ∀ d ∈ (e.processChars l).2, d ∈ alphabet ∨ d = ' ' := by
  induction l with
  | nil => intro e _ _ d hd; simp [Enigma.processChars] at hd
  | cons c cs ih =>
    intro e hWF hlc d hd
    have hcs : ∀ x ∈ cs, x ∈ alphabet ∨ x = ' ' :=
      fun x hx => hlc x (List.mem_cons_of_mem _ hx)
    rw [Enigma.processChars_cons] at hd
    rcases List.mem_cons.mp hd with hd | hd
    · rcases hlc c (List.mem_cons_self _ _) with hc | hc
      · rw [Enigma.encryptChar_of_mem e c hc] at hd
        left
        rw [hd]
        exact Enigma.substitute_mem _ (Enigma.stepRotors_WF e hWF) c hc
      · subst hc
        rw [Enigma.encryptChar_of_not_mem e ' ' (by decide)] at hd
        right
        exact hd
    · rcases hlc c (List.mem_cons_self _ _) with hc | hc
      · rw [Enigma.encryptChar_of_mem e c hc] at hd
        exact ih _ (Enigma.stepRotors_WF e hWF) hcs d hd
      · subst hc
        rw [Enigma.encryptChar_of_not_mem e ' ' (by decide)] at hd
        exact ih e hWF hcs d hd

/-- Core reciprocity: running the machine twice from the same starting state
over uppercase-letter-or-space text returns the original text. -/
theorem Enigma.processChars_reciprocal (l : List Char) : ∀ e : Enigma, e.WF →
    (∀ c ∈ l, c ∈ alphabet ∨ c = ' ') →
    (e.processChars (e.processChars l).2).2 = l := by
  induction l with
  | nil => intro e _ _; rfl
  | cons c cs ih =>
    intro e hWF hlc
    have hcs : ∀ x ∈ cs, x ∈ alphabet ∨ x = ' ' :=
      fun x hx => hlc x (List.mem_cons_of_mem _ hx)
    rcases hlc c (List.mem_cons_self _ _) with hc | hc
    · have hWF2 : e.stepRotors.WF := Enigma.stepRotors_WF e hWF
      have hd : e.stepRotors.substitute c ∈ alphabet :=
        Enigma.substitute_mem _ hWF2 c hc
      rw [Enigma.processChars_cons, Enigma.encryptChar_of_mem e c hc]
      rw [Enigma.processChars_cons, Enigma.encryptChar_of_mem e _ hd]
      simp only
      rw [Enigma.substitute_invol _ hWF2 c hc]
      rw [ih e.stepRotors hWF2 hcs]
    · subst hc
      have hns : (' ' : Char) ∉ alphabet := by decide
      rw [Enigma.processChars_cons, Enigma.encryptChar_of_not_mem e ' ' hns]
      rw [Enigma.processChars_cons, Enigma.encryptChar_of_not_mem e ' ' hns]
      simp only
      rw [ih e hWF hcs]

/-! ### Case-normalization facts -/

/-- The 26 lowercase Latin letters (used to describe inputs; the machine's
own alphabet is the uppercase one). -/
def lowercase : List Char := "abcdefghijklmnopqrstuvwxyz".toList

theorem toUpper_of_mem : ∀ c ∈ alphabet, Char.toUpper c = c := by decide

theorem toUpper_lower_mem : ∀ c ∈ lowercase, Char.toUpper c ∈ alphabet := by decide

theorem lowercase_not_mem : ∀ c ∈ lowercase, c ∉ alphabet := by decide

theorem toUpper_of_not_lower (c : Char) (h : c.isLower = false) : c.toUpper = c := by
  simp only [Char.isLower, Bool.and_eq_false_iff, decide_eq_false_iff_not] at h
  unfold Char.toUpper
  dsimp only
  split
  · rename_i hcond
    exfalso
    obtain ⟨h1, h2⟩ := hcond
    rcases h with h | h
    · exact h h1
    · exact h h2
  · rfl

theorem toUpper_of_not_alpha (c : Char) (h : ¬ c.isAlpha) : c.toUpper = c := by
  apply toUpper_of_not_lower
  simp [Char.isAlpha] at h
  exact h.2

theorem not_alpha_not_mem (c : Char) (h : ¬ c.isAlpha) : c ∉ alphabet := by
  intro hmem
  have hall : ∀ x ∈ alphabet, x.isAlpha := by decide
  exact h (hall c hmem)

theorem map_toUpper_id (l : List Char) (h : ∀ c ∈ l, c ∈ alphabet ∨ c = ' ') :
    l.map Char.toUpper = l := by
  induction l with
  | nil => rfl
  | cons c cs ih =>
    have hc : Char.toUpper c = c := by
      rcases h c (List.mem_cons_self _ _) with hc | hc
      · exact toUpper_of_mem c hc
      · subst hc; decide
    simp only [List.map_cons, hc, List.cons.injEq, true_and]
    exact ih (fun x hx => h x (List.mem_cons_of_mem _ hx))

/-- C1: reciprocity of message processing.  For every configuration (rotor
selectors, initial positions, ring settings, well-formed plugboard pairs) and
every message of letters and spaces, if a freshly constructed machine maps
`M` to `C`, then a second freshly constructed machine with the same
configuration maps `C` back to `M` uppercased.  (The two `process` calls
both start from `mkEnigma cfg`, which is exactly the fresh-construction
precondition; reusing a stepped machine is not expressible here.) -/
theorem C1_reciprocity (ids : Fin 3 × Fin 3 × Fin 3) (pos rings : Int × Int × Int)
    (plug : List (Char × Char)) (hplug : ValidPairs plug) (M C : List Char)
    (hM : ∀ c ∈ M, c ∈ alphabet ∨ c ∈ lowercase ∨ c = ' ')
    (hC : ((mkEnigma ids pos rings plug).process M).2 = C) :
    ((mkEnigma ids pos rings plug).process C).2 = M.map Char.toUpper := by
  subst hC
  have hWF : (mkEnigma ids pos rings plug).WF := mkEnigma_WF ids pos rings plug hplug
  have hMU : ∀ c ∈ M.map Char.toUpper, c ∈ alphabet ∨ c = ' ' := by
    intro c hc
    rw [List.mem_map] at hc
    obtain ⟨a, ha, rfl⟩ := hc
    rcases hM a ha with h | h | h
    · left; rw [toUpper_of_mem a h]; exact h
    · left; exact toUpper_lower_mem a h
    · right; rw [h]; decide
  have hCU : ∀ d ∈ ((mkEnigma ids pos rings plug).processChars (M.map Char.toUpper)).2,
      d ∈ alphabet ∨ d = ' ' :=
    Enigma.processChars_output _ _ hWF hMU
  unfold Enigma.process
  rw [map_toUpper_id _ hCU]
  exact Enigma.processChars_reciprocal _ _ hWF hMU

/-- Witness for C1: the end-to-end scenario of the spec (§8) — encrypting
"HELLO WORLD" and processing the ciphertext on a fresh machine returns
"HELLO WORLD". -/
theorem C1_reciprocity_witness :
    ((mkEnigma (0, 1, 2) (0, 0, 0) (0, 0, 0) []).process
      (((mkEnigma (0, 1, 2) (0, 0, 0) (0, 0, 0) []).process "HELLO WORLD".toList).2)).2
      = "HELLO WORLD".toList.map Char.toUpper :=
  C1_reciprocity (0, 1, 2) (0, 0, 0) (0, 0, 0) [] (by decide) "HELLO WORLD".toList _
    (by decide) rfl

/-- C2: for every alphabetic character, `encryptChar` runs the stepping
policy and then applies exactly the pipeline entry-plugboard, forward
right-to-left, reflector, backward left-to-right, exit-plugboard on the
stepped rotor state; and (with the exit swap in place) the reciprocal
property holds in particular for letters involved in a plugboard pair on a
well-formed machine. -/
theorem C2_pipeline (e : Enigma) (c : Char) (hc : c ∈ alphabet) :
    e.encryptChar c =
      (e.stepRotors,
        plugboardSwap
          (e.stepRotors.right.backward (e.stepRotors.mid.backward
            (e.stepRotors.left.backward (reflect
              (e.stepRotors.left.forward (e.stepRotors.mid.forward
                (e.stepRotors.right.forward
                  (plugboardSwap c e.plugboardPairs))))))))
          e.plugboardPairs)
    ∧ (e.WF → c ∈ pairLetters e.plugboardPairs →
        (e.encryptChar ((e.encryptChar c).2)).2 = c) := by
  have hp : e.stepRotors.plugboardPairs = e.plugboardPairs := by
    rw [Enigma.stepRotors_eq]
  constructor
  · rw [Enigma.encryptChar_of_mem e c hc, Enigma.substitute_def, hp]
  · intro hWF _
    have hWF2 : e.stepRotors.WF := Enigma.stepRotors_WF e hWF
    rw [Enigma.encryptChar_of_mem e c hc]
    simp only
    have hd : e.stepRotors.substitute c ∈ alphabet :=
      Enigma.substitute_mem _ hWF2 c hc
    rw [Enigma.encryptChar_of_mem e _ hd]
    simp only
    exact Enigma.substitute_invol _ hWF2 c hc

/-- Witness for C2: the reciprocal property instantiated on a machine with
plugboard pair (A,B) at the paired letter A (discharging the alphabet,
well-formedness and pair-membership hypotheses). -/
theorem C2_pipeline_witness :
    ((mkEnigma (0, 1, 2) (0, 0, 0) (0, 0, 0) [('A', 'B')]).encryptChar
      (((mkEnigma (0, 1, 2) (0, 0, 0) (0, 0, 0) [('A', 'B')]).encryptChar 'A').2)).2 = 'A' :=
  (C2_pipeline (mkEnigma (0, 1, 2) (0, 0, 0) (0, 0, 0) [('A', 'B')]) 'A' (by decide)).2
    (mkEnigma_WF _ _ _ _ (by decide)) (by decide)

/-- C3: stepping-policy order — the middle rotor steps iff the right rotor
was at its notch before any mutation; the left rotor steps iff the middle
rotor (after a possible step-1 mutation) is at its notch; the right rotor
always steps; and when the right rotor is not at its notch the middle rotor
never steps, even when the middle rotor sits at its own notch. -/
theorem C3_stepping_policy (e : Enigma) :
    e.stepRotors.mid = (if e.right.atNotch then e.mid.step else e.mid)
    ∧ e.stepRotors.left =
        (if (if e.right.atNotch then e.mid.step else e.mid).atNotch
         then e.left.step else e.left)
    ∧ e.stepRotors.right = e.right.step
    ∧ (¬ e.right.atNotch → e.stepRotors.mid = e.mid) := by
  rw [Enigma.stepRotors_eq]
  refine ⟨rfl, rfl, rfl, ?_⟩
  intro h
  simp [h]

/-- Witness for C3: the stepping scenario of the test suite — positions
(0, 4, 0) with the middle rotor at its notch E and the right rotor away from
its notch: the middle rotor does not step, the right rotor does. -/
theorem C3_stepping_policy_witness :
    (mkEnigma (0, 1, 2) (0, 4, 0) (0, 0, 0) []).stepRotors.mid =
        (mkEnigma (0, 1, 2) (0, 4, 0) (0, 0, 0) []).mid
    ∧ (mkEnigma (0, 1, 2) (0, 4, 0) (0, 0, 0) []).stepRotors.right =
        (mkEnigma (0, 1, 2) (0, 4, 0) (0, 0, 0) []).right.step :=
  ⟨(C3_stepping_policy _).2.2.2 (by decide), (C3_stepping_policy _).2.2.1⟩

/-- C4: for every built-in rotor spec, every ring setting and position (all
integers, in particular 0–25) and every alphabet letter, `backward` undoes
`forward` on the same rotor state.  In this functional embedding neither
call touches `position`: both consume the same rotor value. -/
theorem C4_backward_forward (sp : RotorSpec) (hsp : sp ∈ ROTORS)
    (ringSetting position : Int) (c : Char) (hc : c ∈ alphabet) :
    (Rotor.mk sp.wiring sp.notch ringSetting position).backward
      ((Rotor.mk sp.wiring sp.notch ringSetting position).forward c) = c :=
  Rotor.backward_forward _ (rotors_good sp hsp) c hc

/-- Witness for C4: rotor II with ring setting 7 and position 19 applied at
letter Q. -/
theorem C4_backward_forward_witness :
    (Rotor.mk "AJDKSIRUXBLHWTMCQGZNPYFVOE".toList 'E' 7 19).backward
      ((Rotor.mk "AJDKSIRUXBLHWTMCQGZNPYFVOE".toList 'E' 7 19).forward 'Q') = 'Q' :=
  C4_backward_forward ⟨"AJDKSIRUXBLHWTMCQGZNPYFVOE".toList, 'E'⟩ (by decide) 7 19 'Q'
    (by decide)

theorem validPairs_nil : ValidPairs [] := by decide

/-- No fixed point of `encryptChar` on any well-formed machine: a
consequence of the fixed-point-free reflector conjugated by the bijective
rotor and plugboard stages. -/
theorem Enigma.encryptChar_ne (e : Enigma) (hWF : e.WF) (c : Char)
    (hc : c ∈ alphabet) : (e.encryptChar c).2 ≠ c := by
  rw [Enigma.encryptChar_of_mem e c hc]
  exact Enigma.substitute_ne _ (Enigma.stepRotors_WF e hWF) c hc

/-- C6: no fixed point — for each of the 100 sampled position triples of the
test suite (rotors I/II/III, ring settings 0, empty plugboard) and every
letter, `encryptChar` never returns its input. -/
theorem C6_no_fixed_point (i : Nat) (hi : i < 100) (c : Char) (hc : c ∈ alphabet) :
    ((mkEnigma (0, 1, 2) (((i : Int) % 26), ((i : Int) * 2 % 26), ((i : Int) * 3 % 26))
        (0, 0, 0) []).encryptChar c).2 ≠ c :=
  Enigma.encryptChar_ne _ (mkEnigma_WF _ _ _ _ validPairs_nil) c hc

/-- Witness for C6: sample 5 at letter A. -/
theorem C6_no_fixed_point_witness :
    ((mkEnigma (0, 1, 2) (((5 : Nat) : Int) % 26, ((5 : Nat) : Int) * 2 % 26,
        ((5 : Nat) : Int) * 3 % 26) (0, 0, 0) []).encryptChar 'A').2 ≠ 'A' :=
  C6_no_fixed_point 5 (by decide) 'A' (by decide)

/-- C7: the reflector constant is an involution over indices with no fixed
point — reflecting `alphabet[i]` twice returns `alphabet[i]`, and reflecting
once never returns `alphabet[i]` itself. -/
theorem C7_reflector_involution : ∀ i : Nat, i < 26 →
    reflect (reflect (charAt alphabet (i : Int))) = charAt alphabet (i : Int)
    ∧ reflect (charAt alphabet (i : Int)) ≠ charAt alphabet (i : Int) := by decide

/-- Witness for C7: index 0 (letter A, reflected to Y and back). -/
theorem C7_reflector_involution_witness :
    reflect (reflect (charAt alphabet ((0 : Nat) : Int))) = charAt alphabet ((0 : Nat) : Int)
    ∧ reflect (charAt alphabet ((0 : Nat) : Int)) ≠ charAt alphabet ((0 : Nat) : Int) :=
  C7_reflector_involution 0 (by decide)

/-- C8: determinism — two machines built from equal rotor selectors, initial
positions, ring settings and plugboard pairs produce equal results (final
state and output) on equal inputs.  The model is a pure function of the
configuration and the text, reflecting spec §5: fully synchronous, no I/O
and no source of nondeterminism. -/
theorem C8_determinism (ids1 ids2 : Fin 3 × Fin 3 × Fin 3)
    (pos1 pos2 rings1 rings2 : Int × Int × Int)
    (plug1 plug2 : List (Char × Char)) (M1 M2 : List Char)
    (hids : ids1 = ids2) (hpos : pos1 = pos2) (hrings : rings1 = rings2)
    (hplug : plug1 = plug2) (hM : M1 = M2) :
    (mkEnigma ids1 pos1 rings1 plug1).process M1 =
      (mkEnigma ids2 pos2 rings2 plug2).process M2 := by
  subst hids; subst hpos; subst hrings; subst hplug; subst hM; rfl

/-- Witness for C8: two identically configured machines on "HELLO WORLD". -/
theorem C8_determinism_witness :
    (mkEnigma (0, 1, 2) (0, 0, 0) (0, 0, 0) [('A', 'B')]).process "HELLO WORLD".toList =
      (mkEnigma (0, 1, 2) (0, 0, 0) (0, 0, 0) [('A', 'B')]).process "HELLO WORLD".toList :=
  C8_determinism (0, 1, 2) (0, 1, 2) (0, 0, 0) (0, 0, 0) (0, 0, 0) (0, 0, 0)
    [('A', 'B')] [('A', 'B')] "HELLO WORLD".toList "HELLO WORLD".toList
    rfl rfl rfl rfl rfl

/-! ### Passthrough and frame facts -/

theorem getD_map_toUpper (l : List Char) (i : Nat) (h : i < l.length) :
    (l.map Char.toUpper).getD i ' ' = Char.toUpper (l.getD i ' ') := by
  rw [List.getD_eq_getElem?_getD, List.getD_eq_getElem?_getD, List.getElem?_map,
    List.getElem?_eq_getElem h]
  simp

theorem Enigma.processChars_getD (l : List Char) : ∀ (e : Enigma) (i : Nat),
    i < l.length → l.getD i ' ' ∉ alphabet →
    (e.processChars l).2.getD i ' ' = l.getD i ' ' := by
  induction l with
  | nil => intro e i hi _; simp at hi
  | cons c cs ih =>
    intro e i hi hna
    rw [Enigma.processChars_cons]
    cases i with
    | zero =>
      rw [List.getD_cons_zero] at hna
      rw [List.getD_cons_zero, List.getD_cons_zero,
        Enigma.encryptChar_of_not_mem e c hna]
    | succ n =>
      rw [List.getD_cons_succ] at hna
      rw [List.getD_cons_succ, List.getD_cons_succ]
      exact ih _ n (by simpa using hi) hna

theorem Enigma.processChars_state_id (l : List Char) : ∀ e : Enigma,
    (∀ c ∈ l, c ∉ alphabet) → (e.processChars l).1 = e := by
  induction l with
  | nil => intro e _; rfl
  | cons c cs ih =>
    intro e h
    rw [Enigma.processChars_cons,
      Enigma.encryptChar_of_not_mem e c (h c (List.mem_cons_self _ _))]
    exact ih e (fun x hx => h x (List.mem_cons_of_mem _ hx))

/-- C5: `process` uppercases the whole input first and then maps
`encryptChar` over it in order; the output has exactly the input's length;
every non-alphabetic character appears verbatim at the same position of the
output; and a message of only non-alphabetic characters leaves the machine
state (hence every rotor position) untouched. -/
theorem C5_process_shape (e : Enigma) (l : List Char) :
    e.process l = e.processChars (l.map Char.toUpper)
    ∧ (e.process l).2.length = l.length
    ∧ (∀ i : Nat, i < l.length → ¬ (l.getD i ' ').isAlpha →
        (e.process l).2.getD i ' ' = l.getD i ' ')
    ∧ ((∀ c ∈ l, ¬ c.isAlpha) → (e.process l).1 = e) := by
  refine ⟨rfl, ?_, ?_, ?_⟩
  · unfold Enigma.process
    rw [Enigma.processChars_length]
    exact l.length_map Char.toUpper
  · intro i hi hna
    have h1 : Char.toUpper (l.getD i ' ') = l.getD i ' ' := toUpper_of_not_alpha _ hna
    have h2 : (l.map Char.toUpper).getD i ' ' = l.getD i ' ' := by
      rw [getD_map_toUpper l i hi, h1]
    have h3 : l.getD i ' ' ∉ alphabet := not_alpha_not_mem _ hna
    have h4 := Enigma.processChars_getD (l.map Char.toUpper) e i
      (by simpa using hi) (h2 ▸ h3)
    unfold Enigma.process
    rw [h4, h2]
  · intro h
    unfold Enigma.process
    apply Enigma.processChars_state_id
    intro c hcmem
    rw [List.mem_map] at hcmem
    obtain ⟨a, ha, rfl⟩ := hcmem
    rw [toUpper_of_not_alpha a (h a ha)]
    exact not_alpha_not_mem a (h a ha)

/-- Witness for C5: length preservation and verbatim passthrough of the
digit at index 1 of "A1 B", and state preservation on the all-non-alphabetic
message "12 !". -/
theorem C5_process_shape_witness :
    ((mkEnigma (0, 1, 2) (0, 0, 0) (0, 0, 0) []).process "A1 B".toList).2.length
        = "A1 B".toList.length
    ∧ ((mkEnigma (0, 1, 2) (0, 0, 0) (0, 0, 0) []).process "A1 B".toList).2.getD 1 ' '
        = "A1 B".toList.getD 1 ' '
    ∧ ((mkEnigma (0, 1, 2) (0, 0, 0) (0, 0, 0) []).process "12 !".toList).1
        = mkEnigma (0, 1, 2) (0, 0, 0) (0, 0, 0) [] :=
  ⟨(C5_process_shape _ _).2.1,
   (C5_process_shape _ _).2.2.1 1 (by decide) (by decide),
   (C5_process_shape _ _).2.2.2 (by decide)⟩

/-- C9: frame property — one `encryptChar` call can change only the three
rotor positions; each rotor's wiring, notch and ring setting and the
machine's plugboard pairs are unchanged, and each position either stays or
advances by exactly one modulo 26.  (The tables `ROTORS`, `REFLECTOR` and
`alphabet` are immutable constants of the model.) -/
theorem C9_frame (e : Enigma) (c : Char) :
    (e.encryptChar c).1.left.wiring = e.left.wiring
    ∧ (e.encryptChar c).1.left.notch = e.left.notch
    ∧ (e.encryptChar c).1.left.ringSetting = e.left.ringSetting
    ∧ (e.encryptChar c).1.mid.wiring = e.mid.wiring
    ∧ (e.encryptChar c).1.mid.notch = e.mid.notch
    ∧ (e.encryptChar c).1.mid.ringSetting = e.mid.ringSetting
    ∧ (e.encryptChar c).1.right.wiring = e.right.wiring
    ∧ (e.encryptChar c).1.right.notch = e.right.notch
    ∧ (e.encryptChar c).1.right.ringSetting = e.right.ringSetting
    ∧ (e.encryptChar c).1.plugboardPairs = e.plugboardPairs
    ∧ ((e.encryptChar c).1.left.position = e.left.position
        ∨ (e.encryptChar c).1.left.position = mod (e.left.position + 1) 26)
    ∧ ((e.encryptChar c).1.mid.position = e.mid.position
        ∨ (e.encryptChar c).1.mid.position = mod (e.mid.position + 1) 26)
    ∧ ((e.encryptChar c).1.right.position = e.right.position
        ∨ (e.encryptChar c).1.right.position = mod (e.right.position + 1) 26) := by
  by_cases hc : c ∈ alphabet
  · rw [Enigma.encryptChar_of_mem e c hc, Enigma.stepRotors_eq]
    split_ifs <;> simp [Rotor.step]
  · rw [Enigma.encryptChar_of_not_mem e c hc]
    simp

/-- C10: `encryptChar` applied directly to a lowercase letter treats it as
non-alphabetic (membership is tested against the 26 uppercase letters only):
the character is returned unchanged and no rotor steps — case normalization
happens only inside `process`. -/
theorem C10_lowercase_passthrough (e : Enigma) (c : Char) (hc : c ∈ lowercase) :
    e.encryptChar c = (e, c) :=
  Enigma.encryptChar_of_not_mem e c (lowercase_not_mem c hc)

/-- Witness for C10: the letter a passes through unchanged, with the machine
state untouched. -/
theorem C10_lowercase_passthrough_witness :
    (mkEnigma (0, 1, 2) (0, 0, 0) (0, 0, 0) []).encryptChar 'a'
      = (mkEnigma (0, 1, 2) (0, 0, 0) (0, 0, 0) [], 'a') :=
  C10_lowercase_passthrough _ 'a' (by decide)
